import Mathlib

/-!
# photo-map: request validation and pagination in `main.go`

A shallow embedding of the three region-scoped handlers of `main.go`
(`handleImageAPI`, `handleImageServe`, `handleThumbServe`), of the helpers
`allowedRegion` and `isImage`, and of the standard-library functions they call
(`strings.Split`, `strings.TrimPrefix`, `strings.Contains`, `strings.ToLower`,
`filepath.Ext`, `filepath.Join`).

Conventions.
* A Go string is a list of runes (`Str`).
* Lower-casing within ASCII is computed; outside ASCII it is read off a case table
  (`CaseTable`), a parameter, so every theorem holds for the table of the Go library.
* The relational store and the filesystem are explicit arguments of every handler.
* A handler returns the reply it writes together with the list of external calls
  it made (store queries, `os.ReadDir`, `http.ServeFile`), in order.
* The Go type `int` is the 64-bit signed integer; `offset + limit` wraps around.
* A Go slice that may be `nil` is an `Option (List _)`, `none` being `nil`.
-/

namespace PhotoMap

/-! ## Strings -/

/-- A Go string, as its sequence of runes. -/
abbrev Str := List Char

/-- The lower-case mapping of the runes outside ASCII, `unicode.To(unicode.LowerCase, r)`,
which Go reads off the table `unicode.CaseRanges`. The table belongs to the standard
library and is taken as a parameter of everything that lower-cases a string. -/
abbrev CaseTable := Char → Char

/-- Go `unicode.ToLower`: within ASCII the letters `A`..`Z` are shifted to `a`..`z`
and every other rune is left alone; outside ASCII the case table decides. -/
def lowerRune (tab : CaseTable) (c : Char) : Char :=
  if c.toNat ≤ 0x7F then c.toLower else tab c

/-- Go `strings.ToLower`: `unicode.ToLower` applied to every rune. -/
def ToLower (tab : CaseTable) (s : Str) : Str := s.map (lowerRune tab)

/-- Go `strings.HasPrefix(s, p)`. -/
def HasPrefix (s p : Str) : Bool := p.isPrefixOf s

/-- Go `strings.TrimPrefix(s, p)`: `s` without the leading `p`, or `s` unchanged. -/
def TrimPrefix (s p : Str) : Str :=
  if HasPrefix s p then s.drop p.length else s

/-- Go `strings.Contains(s, sub)`. -/
def Contains : Str → Str → Bool
  | [], sub => sub.isEmpty
  | c :: cs, sub => HasPrefix (c :: cs) sub || Contains cs sub

/-- Go `strings.Split(s, "/")`: the pieces between slashes; one piece when there is no slash,
so the result is never empty. -/
def Split : Str → List Str
  | [] => [[]]
  | c :: cs =>
    if c = '/' then [] :: Split cs
    else
      match Split cs with
      | [] => [[c]]
      | p :: ps => (c :: p) :: ps

/-- The traversal marker `".."`. -/
def dotdot : Str := ['.', '.']

/-! ## `path/filepath` (Unix) -/

/-- The backward scan of `filepath.Ext`: `rev` is the part of the path still to be examined,
last rune first, and `suffix` the part already passed. -/
def extScan : Str → Str → Str
  | [], _ => []
  | c :: rev, suffix =>
    if c = '/' then []
    else if c = '.' then c :: suffix
    else extScan rev (c :: suffix)

/-- Go `filepath.Ext`: the suffix beginning at the final dot of the final element of the path,
empty if there is no dot. -/
def Ext (path : Str) : Str := extScan path.reverse []

/-- The element loop of `filepath.Clean`. `out` holds the elements kept so far, last one first.
Empty elements and `.` are dropped; `..` removes the preceding kept element, and where there
is none it is dropped for a rooted path and kept for a relative one. -/
def cleanElems (rooted : Bool) : List Str → List Str → List Str
  | [], out => out.reverse
  | e :: es, out =>
    if e = [] ∨ e = ['.'] then cleanElems rooted es out
    else if e = dotdot then
      match out with
      | [] => if rooted then cleanElems rooted es [] else cleanElems rooted es [dotdot]
      | top :: rest =>
        if top = dotdot ∧ rooted = false then cleanElems rooted es (dotdot :: top :: rest)
        else cleanElems rooted es rest
    else cleanElems rooted es (e :: out)

/-- Go `filepath.Clean` with separator `/`. -/
def Clean (path : Str) : Str :=
  if path = [] then ['.']
  else
    let rooted := HasPrefix path ['/']
    let body := ['/'].intercalate (cleanElems rooted (Split path) [])
    let out := if rooted then '/' :: body else body
    if out = [] then ['.'] else out

/-- Go `filepath.Join`: the elements from the first non-empty one on, joined by `/`
and cleaned; the empty string when every element is empty. -/
def Join : List Str → Str
  | [] => []
  | e :: es => if e = [] then Join es else Clean (['/'].intercalate (e :: es))

/-! ## `isImage` -/

/-- `isImage` of `main.go`: the lower-cased extension is one of the five image extensions. -/
def isImage (tab : CaseTable) (filename : Str) : Bool :=
  let ext := ToLower tab (Ext filename)
  if ext = ".jpg".toList ∨ ext = ".jpeg".toList ∨ ext = ".png".toList
      ∨ ext = ".gif".toList ∨ ext = ".webp".toList then true
  else false

/-! ## The relational store -/

/-- A row of table `region`. Only the `name` column takes part in the handlers modelled
here; `lat` and `long` are read by `handleRegionsAPI` alone. -/
structure Row where
  name : Str
deriving DecidableEq

/-- The store behind `pgConn`: the rows of table `region`, and for every query argument
the error the driver answers with, if any. -/
structure DB where
  region : List Row
  queryErr : Str → Option Str

/-- The query of `allowedRegion`, `SELECT * from public.region where name=$1`:
an error, or the rows whose name is the argument. -/
def DB.Query (db : DB) (s : Str) : Except Str (List Row) :=
  match db.queryErr s with
  | some e => Except.error e
  | none => Except.ok (db.region.filter (fun row => row.name = s))

/-- `allowedRegion` of `main.go`: `false` on a query error, else `rows.Next()`,
which is whether the result has a first row. -/
def allowedRegion (pgConn : DB) (s : Str) : Bool :=
  match pgConn.Query s with
  | Except.error _ => false
  | Except.ok rows => !rows.isEmpty

/-! ## Requests, replies, external calls -/

/-- The filesystem as `os.ReadDir` sees it: for a directory path, `none` for an error,
else the names of the entries in the order returned. -/
abbrev FS := Str → Option (List Str)

/-- The part of an `http.Request` the handlers read. `offset` and `limit` are the values
`strconv.Atoi` returns for the query parameters of those names (0 when the parameter is
missing or not a number; the error is discarded by the handler). -/
structure Request where
  method : Str
  path : Str
  offset : Int
  limit : Int

/-- An external call made by a handler. -/
inductive Call where
  | query (name : Str)
  | readDir (path : Str)
  | serveFile (path : Str)
deriving DecidableEq

/-- How `encoding/json` writes a `[]string`: `null` for the nil slice, an array otherwise. -/
inductive JsonList where
  | null
  | array (items : List Str)
deriving DecidableEq

/-- What a handler writes. `served` stands for whatever `http.ServeFile` writes for the
path it was given. -/
inductive Reply where
  | error (msg : Str) (code : Nat)
  | preflight
  | json (images : JsonList) (has_more : Bool)
  | served (path : Str)
deriving DecidableEq

/-- The outcome of a handler: its external calls in order, and its reply. -/
structure Result where
  calls : List Call
  reply : Reply
deriving DecidableEq

/-- The status a reply carries when the handler sets it itself; `none` when
`http.ServeFile` decides it. -/
def Reply.status : Reply → Option Nat
  | Reply.error _ code => some code
  | Reply.preflight => some 200
  | Reply.json _ _ => some 200
  | Reply.served _ => none

/-- Whether a call is `os.ReadDir` or `http.ServeFile`. -/
def Call.touchesFiles : Call → Bool
  | Call.query _ => false
  | Call.readDir _ => true
  | Call.serveFile _ => true

def StatusBadRequest : Nat := 400
def StatusForbidden : Nat := 403
def StatusNotFound : Nat := 404
def MethodOptions : Str := "OPTIONS".toList
def MethodGet : Str := "GET".toList

/-! ## Pagination (`handleImageAPI`, lines 108-148) -/

/-- Wrap-around of the 64-bit Go `int`. -/
def wrapInt (x : Int) : Int := (x + 2 ^ 63) % 2 ^ 64 - 2 ^ 63

def MaxInt : Int := 2 ^ 63 - 1

/-- Go `append(s, x)` on a slice that may be nil: the result is never nil. -/
def appendSlice (s : Option (List Str)) (x : Str) : Option (List Str) :=
  match s with
  | none => some [x]
  | some l => some (l ++ [x])

/-- The elements of a slice that may be nil. -/
def elems (s : Option (List Str)) : List Str := s.getD []

/-- Go `json.Marshal` of a `[]string`. -/
def Marshal : Option (List Str) → JsonList
  | none => JsonList.null
  | some l => JsonList.array l

/-- The names in an encoded list; `null` holds none. -/
def JsonList.items : JsonList → List Str
  | JsonList.null => []
  | JsonList.array l => l

/-- The variables `images` and `count` of `handleImageAPI`. `count` never exceeds the
number of entries, which fits an `int`, so `count++` does not wrap. -/
structure Acc where
  images : Option (List Str)
  count : Int
deriving DecidableEq

/-- The limit clamp of lines 110-112. -/
def clampLimit (limit : Int) : Int :=
  if limit ≤ 0 ∨ limit > 30 then 30 else limit

/-- The first loop (lines 125-129): `totalFiles`. -/
def countImages (tab : CaseTable) : List Str → Int
  | [] => 0
  | f :: fs => if isImage tab f then countImages tab fs + 1 else countImages tab fs

/-- The second loop (lines 131-142), from the state `acc` over the remaining entries. -/
def collect (tab : CaseTable) (offset limit : Int) : List Str → Acc → Acc
  | [], acc => acc
  | f :: fs, acc =>
    if !isImage tab f then collect tab offset limit fs acc
    else if acc.count ≥ wrapInt (offset + limit) then acc
    else
      collect tab offset limit fs
        { images := if acc.count ≥ offset then appendSlice acc.images f else acc.images,
          count := acc.count + 1 }

/-- What `handleImageAPI` puts in its response body. -/
structure Page where
  images : Option (List Str)
  has_more : Bool
deriving DecidableEq

/-- Lines 110-148 of `handleImageAPI` for a directory listing `files` and the parsed
`offset` and `limit`. -/
def imagePage (tab : CaseTable) (files : List Str) (offset limit : Int) : Page :=
  let limit := clampLimit limit
  let totalFiles := countImages tab files
  let acc := collect tab offset limit files { images := none, count := 0 }
  { images := acc.images, has_more := decide (acc.count < totalFiles) }

/-! ## Handlers -/

/-- `handleImageAPI` of `main.go`. -/
def handleImageAPI (tab : CaseTable) (pgConn : DB) (fs : FS) (r : Request) : Result :=
  if r.method = MethodOptions then { calls := [], reply := Reply.preflight }
  else
    let pathParts := Split (TrimPrefix r.path "/api/images/".toList)
    match pathParts with
    | [] => { calls := [], reply := Reply.error "Missing region".toList StatusBadRequest }
    | part0 :: _ =>
      let region := ToLower tab part0
      if !allowedRegion pgConn region || Contains region dotdot then
        { calls := [Call.query region],
          reply := Reply.error "Invalid region".toList StatusForbidden }
      else
        let imagePath := Join ["images".toList, region]
        match fs imagePath with
        | none =>
          { calls := [Call.query region, Call.readDir imagePath],
            reply := Reply.error "Region not found".toList StatusNotFound }
        | some files =>
          let page := imagePage tab files r.offset r.limit
          { calls := [Call.query region, Call.readDir imagePath],
            reply := Reply.json (Marshal page.images) page.has_more }

/-- The common body of `handleImageServe` and `handleThumbServe`, which differ in the
route and in the root directory only. -/
def serveUnder (tab : CaseTable) (route root : Str) (pgConn : DB) (r : Request) : Result :=
  let pathParts := Split (TrimPrefix r.path route)
  match pathParts with
  | part0 :: part1 :: _ =>
    let region := ToLower tab part0
    let filename := part1
    if !allowedRegion pgConn region || Contains region dotdot || Contains filename dotdot then
      { calls := [Call.query region],
        reply := Reply.error "Forbidden".toList StatusForbidden }
    else
      let path := Join [root, region, filename]
      { calls := [Call.query region, Call.serveFile path], reply := Reply.served path }
  | _ => { calls := [], reply := Reply.error "Invalid path".toList StatusBadRequest }

/-- `handleThumbServe` of `main.go`. -/
def handleThumbServe (tab : CaseTable) (pgConn : DB) (r : Request) : Result :=
  serveUnder tab "/thumbs/".toList "thumbs".toList pgConn r

/-- `handleImageServe` of `main.go`. -/
def handleImageServe (tab : CaseTable) (pgConn : DB) (r : Request) : Result :=
  serveUnder tab "/images/".toList "images".toList pgConn r

/-- The region segment of a request path under a route: the first piece after the
route, lower-cased. -/
def regionOf (tab : CaseTable) (route path : Str) : Str :=
  ToLower tab ((Split (TrimPrefix path route)).headD [])

/-- The filename segment of a request path under a route: the second piece after the
route, if there is one. -/
def filenameOf (route path : Str) : Option Str :=
  (Split (TrimPrefix path route)).tail.head?

/-- No `os.ReadDir` and no `http.ServeFile` among the calls of a result. -/
def Result.noFileAccess (res : Result) : Prop :=
  ∀ c ∈ res.calls, c.touchesFiles = false

instance (res : Result) : Decidable res.noFileAccess := by
  unfold Result.noFileAccess; infer_instance

/-! ## Sample data -/

/-- The listing of the scenario `images/paris/`. -/
def sampleFiles : List Str :=
  ["a.png".toList, "b.txt".toList, "c.jpg".toList, "d.webp".toList]

/-- A store whose only region is `paris` and whose queries do not fail. -/
def parisDB : DB :=
  { region := [{ name := "paris".toList }], queryErr := fun _ => none }

/-- A store that answers every query with an error, though `paris` is in the table. -/
def downDB : DB :=
  { region := [{ name := "paris".toList }], queryErr := fun _ => some "connection refused".toList }

/-- A filesystem where every directory exists and holds the sample listing. -/
def sampleFS : FS := fun _ => some sampleFiles

/-- The effective limit in the words of the specification: `limit` when it lies in
`1..30`, and 30 otherwise. -/
def effectiveLimit (limit : Int) : Nat :=
  if 1 ≤ limit ∧ limit ≤ 30 then limit.toNat else 30

/-- A case table that lower-cases U+00C9 (E with acute) to U+00E9, as the Go table does,
and leaves every other rune as it is. -/
def sampleTable : CaseTable :=
  fun c => if c = Char.ofNat 0xC9 then Char.ofNat 0xE9 else c

/-- The request of the scenario `GET /images/paris/../../etc/passwd`. -/
def passwdRequest : Request :=
  { method := MethodGet, path := "/images/paris/../../etc/passwd".toList, offset := 0, limit := 0 }

/-- A store whose only region is named U+00C9 followed by `cole`, with the capital kept. -/
def ecoleDB : DB :=
  { region := [{ name := Char.ofNat 0xC9 :: "cole".toList }], queryErr := fun _ => none }

/-- A listing request whose region segment is U+00C9 followed by `COLE`, all capitals. -/
def ecoleRequest : Request :=
  { method := MethodGet,
    path := "/api/images/".toList ++ Char.ofNat 0xC9 :: "COLE".toList,
    offset := 0, limit := 0 }

/-- A request for an image of `paris`, sent with method POST. -/
def parisImageRequest : Request :=
  { method := "POST".toList, path := "/images/paris/a.png".toList, offset := 0, limit := 0 }

/-- A request for the path `/images/paris/`, whose filename segment is empty. -/
def slashRequest : Request :=
  { method := MethodGet, path := "/images/paris/".toList, offset := 0, limit := 0 }

/-- A request for the path `/thumbs/paris/.`, whose filename segment is `.`. -/
def dotRequest : Request :=
  { method := MethodGet, path := "/thumbs/paris/.".toList, offset := 0, limit := 0 }

/-- A filesystem in which every directory exists and is empty. -/
def emptyFS : FS := fun _ => some []

/-- A listing request for `Paris` with the given query values. -/
def parisListing (offset limit : Int) : Request :=
  { method := MethodGet, path := "/api/images/Paris".toList, offset := offset, limit := limit }

/-- A listing request for `paris` with no query parameters. -/
def parisListRequest : Request :=
  { method := MethodGet, path := "/api/images/paris".toList, offset := 0, limit := 0 }

/-- A listing request for `paris` with `offset=3`, the number of images in the sample. -/
def parisPastEndRequest : Request :=
  { method := MethodGet, path := "/api/images/paris".toList, offset := 3, limit := 2 }

/-! ## Pagination lemmas -/

theorem elems_appendSlice (s : Option (List Str)) (x : Str) :
    elems (appendSlice s x) = elems s ++ [x] := by
  cases s <;> simp [elems, appendSlice]

theorem items_Marshal (s : Option (List Str)) : (Marshal s).items = elems s := by
  cases s <;> rfl

theorem countImages_eq_length (tab : CaseTable) (files : List Str) :
    countImages tab files = ((files.filter (isImage tab)).length : Int) := by
  induction files with
  | nil => simp [countImages]
  | cons f fs ih =>
    by_cases hf : isImage tab f = true
    · simp [countImages, hf, ih]
    · simp [countImages, hf, ih]

/-- The second loop, for every start state and all integers `offset` and `limit`. -/
theorem collect_spec (tab : CaseTable) (offset limit : Int) (files : List Str) (acc : Acc) :
    elems (collect tab offset limit files acc).images
        = elems acc.images ++
          ((files.filter (isImage tab)).drop (offset - acc.count).toNat).take
            (wrapInt (offset + limit) - max acc.count offset).toNat
      ∧ (collect tab offset limit files acc).count
        = min (acc.count + ((files.filter (isImage tab)).length : Int))
            (max acc.count (wrapInt (offset + limit))) := by
  induction files generalizing acc with
  | nil => simp [collect]
  | cons f fs ih =>
    by_cases hf : isImage tab f = true
    · by_cases hbreak : acc.count ≥ wrapInt (offset + limit)
      · have h0 : (wrapInt (offset + limit) - max acc.count offset).toNat = 0 := by omega
        simp only [collect, hf, hbreak, List.filter_cons_of_pos, h0]
        simp
        omega
      · by_cases hoff : acc.count ≥ offset
        · have hd : (offset - acc.count).toNat = 0 := by omega
          have hd1 : (offset - (acc.count + 1)).toNat = 0 := by omega
          have ht : (wrapInt (offset + limit) - max acc.count offset).toNat
              = (wrapInt (offset + limit) - max (acc.count + 1) offset).toNat + 1 := by omega
          have := ih { images := appendSlice acc.images f, count := acc.count + 1 }
          simp only [collect, hf, hbreak, hoff, List.filter_cons_of_pos, hd, ht]
          simp only [hd1, elems_appendSlice] at this
          simp [this]
          omega
        · have hd : (offset - acc.count).toNat = (offset - (acc.count + 1)).toNat + 1 := by omega
          have ht : max acc.count offset = max (acc.count + 1) offset := by omega
          have := ih { images := acc.images, count := acc.count + 1 }
          simp only [collect, hf, hbreak, hoff, List.filter_cons_of_pos, hd, ht]
          simp [this]
          omega
    · have := ih acc
      simp [collect, hf, this]

theorem wrapInt_of_inRange (x : Int) (hlo : -(2 ^ 63) ≤ x) (hhi : x ≤ MaxInt) :
    wrapInt x = x := by
  unfold wrapInt
  unfold MaxInt at hhi
  omega

theorem clampLimit_eq_effectiveLimit (limit : Int) :
    clampLimit limit = (effectiveLimit limit : Int) := by
  unfold clampLimit effectiveLimit
  split_ifs <;> omega

theorem effectiveLimit_le (limit : Int) : effectiveLimit limit ≤ 30 := by
  unfold effectiveLimit
  split_ifs <;> omega

theorem effectiveLimit_pos (limit : Int) : 1 ≤ effectiveLimit limit := by
  unfold effectiveLimit
  split_ifs <;> omega

/-- The page for a non-negative offset whose sum with the effective limit does not wrap. -/
theorem imagePage_inRange (tab : CaseTable) (files : List Str) (offset : Nat) (limit : Int)
    (h : (offset : Int) + (effectiveLimit limit : Int) ≤ MaxInt) :
    elems (imagePage tab files offset limit).images
        = ((files.filter (isImage tab)).drop offset).take (effectiveLimit limit)
      ∧ ((imagePage tab files offset limit).has_more = true
          ↔ offset + effectiveLimit limit < (files.filter (isImage tab)).length) := by
  have hw : wrapInt ((offset : Int) + clampLimit limit)
      = ((offset + effectiveLimit limit : Nat) : Int) := by
    rw [clampLimit_eq_effectiveLimit, wrapInt_of_inRange _ (by omega) h]
    push_cast
    rfl
  have hs := collect_spec tab (offset : Int) (clampLimit limit) files
    { images := none, count := 0 }
  rw [hw] at hs
  obtain ⟨hi, hc⟩ := hs
  constructor
  · simp only [imagePage]
    rw [hi]
    have h1 : ((offset : Int) - (0 : Int)).toNat = offset := by omega
    have h2 : (((offset + effectiveLimit limit : Nat) : Int) - max (0 : Int) (offset : Int)).toNat
        = effectiveLimit limit := by omega
    simp [elems, h1, h2]
  · simp only [imagePage, decide_eq_true_eq]
    rw [hc, countImages_eq_length]
    simp only []
    omega

theorem collect_nil_or_nonempty (tab : CaseTable) (offset limit : Int) (files : List Str)
    (acc : Acc) (h : acc.images = none ∨ elems acc.images ≠ []) :
    (collect tab offset limit files acc).images = none
      ∨ elems (collect tab offset limit files acc).images ≠ [] := by
  induction files generalizing acc with
  | nil => simpa [collect] using h
  | cons f fs ih =>
    by_cases hf : isImage tab f = true
    · by_cases hbreak : acc.count ≥ wrapInt (offset + limit)
      · simpa [collect, hf, hbreak] using h
      · by_cases hoff : acc.count ≥ offset
        · have := ih { images := appendSlice acc.images f, count := acc.count + 1 }
            (Or.inr (by simp [elems_appendSlice]))
          simpa [collect, hf, hbreak, hoff] using this
        · have := ih { images := acc.images, count := acc.count + 1 } h
          simpa [collect, hf, hbreak, hoff] using this
    · have := ih acc h
      simpa [collect, hf] using this

/-- A page without names holds the nil slice, which `encoding/json` writes as `null`. -/
theorem empty_page_marshals_null (tab : CaseTable) (files : List Str) (offset limit : Int)
    (h : elems (imagePage tab files offset limit).images = []) :
    Marshal (imagePage tab files offset limit).images = JsonList.null := by
  have := collect_nil_or_nonempty tab offset (clampLimit limit) files
    { images := none, count := 0 } (Or.inl rfl)
  simp only [imagePage] at h ⊢
  rcases this with hn | hne
  · rw [hn]; rfl
  · exact absurd h hne

/-- An offset at or past the number of images, when `offset + limit` does not wrap:
no names and `has_more = false`. -/
theorem offset_past_end_inRange (tab : CaseTable) (files : List Str) (offset : Nat)
    (limit : Int) (h : (offset : Int) + (effectiveLimit limit : Int) ≤ MaxInt)
    (hT : (files.filter (isImage tab)).length ≤ offset) :
    elems (imagePage tab files offset limit).images = []
      ∧ (imagePage tab files offset limit).has_more = false := by
  obtain ⟨hi, hm⟩ := imagePage_inRange tab files offset limit h
  constructor
  · rw [hi, List.drop_of_length_le hT, List.take_nil]
  · cases hb : (imagePage tab files offset limit).has_more
    · rfl
    · have := hm.1 hb
      omega

/-! ## Handler lemmas -/

theorem Split_ne_nil (s : Str) : Split s ≠ [] := by
  induction s with
  | nil => simp [Split]
  | cons c cs ih =>
    unfold Split
    split_ifs
    · simp
    · cases h : Split cs <;> simp

theorem allowedRegion_iff (pgConn : DB) (s : Str) :
    allowedRegion pgConn s = true
      ↔ ∃ rows, pgConn.Query s = Except.ok rows ∧ rows ≠ [] := by
  unfold allowedRegion
  cases h : pgConn.Query s with
  | error e => simp
  | ok rows => cases rows <;> simp

theorem allowedRegion_of_error (pgConn : DB) (s e : Str)
    (h : pgConn.Query s = Except.error e) : allowedRegion pgConn s = false := by
  simp [allowedRegion, h]

theorem allowedRegion_of_no_row (pgConn : DB) (s : Str)
    (h : ∀ row ∈ pgConn.region, row.name ≠ s) : allowedRegion pgConn s = false := by
  unfold allowedRegion DB.Query
  cases pgConn.queryErr s with
  | some e => rfl
  | none =>
    have : pgConn.region.filter (fun row => decide (row.name = s)) = [] := by
      rw [List.filter_eq_nil_iff]
      intro row hrow
      simpa using h row hrow
    simp [this]

/-- A serve handler that finds the region not allowed, or `..` in the region or in the
filename, answers 403 after the store query and nothing else. -/
theorem serveUnder_forbidden (tab : CaseTable) (route root : Str) (pgConn : DB) (r : Request)
    (f : Str) (hf : filenameOf route r.path = some f)
    (h : allowedRegion pgConn (regionOf tab route r.path) = false
      ∨ Contains (regionOf tab route r.path) dotdot = true ∨ Contains f dotdot = true) :
    serveUnder tab route root pgConn r
      = { calls := [Call.query (regionOf tab route r.path)],
          reply := Reply.error "Forbidden".toList StatusForbidden } := by
  unfold filenameOf at hf
  unfold regionOf at h ⊢
  unfold serveUnder
  cases hs : Split (TrimPrefix r.path route) with
  | nil => simp [hs] at hf
  | cons p0 rest =>
    cases rest with
    | nil => simp [hs] at hf
    | cons p1 rest1 =>
      simp only [hs, List.tail_cons, List.head?_cons, Option.some.injEq, List.headD_cons]
        at hf h ⊢
      subst hf
      rcases h with h | h | h <;> simp [h]

/-- The listing handler, for a method other than OPTIONS, that finds the region not
allowed or `..` in it, answers 403 after the store query and nothing else. -/
theorem handleImageAPI_forbidden (tab : CaseTable) (pgConn : DB) (fs : FS) (r : Request)
    (hm : r.method ≠ MethodOptions)
    (h : allowedRegion pgConn (regionOf tab "/api/images/".toList r.path) = false
      ∨ Contains (regionOf tab "/api/images/".toList r.path) dotdot = true) :
    handleImageAPI tab pgConn fs r
      = { calls := [Call.query (regionOf tab "/api/images/".toList r.path)],
          reply := Reply.error "Invalid region".toList StatusForbidden } := by
  unfold regionOf at h ⊢
  unfold handleImageAPI
  cases hs : Split (TrimPrefix r.path "/api/images/".toList) with
  | nil => exact absurd hs (Split_ne_nil _)
  | cons p0 rest =>
    simp only [hs, List.headD_cons] at h ⊢
    rcases h with h | h <;> simp [hm, h]

/-- The listing handler, for a method other than OPTIONS, a region the store allows and
that holds no `..`, and a region directory that `os.ReadDir` can read: it queries the
store, reads the directory, and replies 200 with the page of the listing. -/
theorem handleImageAPI_listing (tab : CaseTable) (pgConn : DB) (fs : FS) (r : Request)
    (files : List Str) (hm : r.method ≠ MethodOptions)
    (hallow : allowedRegion pgConn (regionOf tab "/api/images/".toList r.path) = true)
    (hdots : Contains (regionOf tab "/api/images/".toList r.path) dotdot = false)
    (hdir : fs (Join ["images".toList, regionOf tab "/api/images/".toList r.path])
      = some files) :
    handleImageAPI tab pgConn fs r
      = { calls := [Call.query (regionOf tab "/api/images/".toList r.path),
            Call.readDir (Join ["images".toList, regionOf tab "/api/images/".toList r.path])],
          reply := Reply.json (Marshal (imagePage tab files r.offset r.limit).images)
            (imagePage tab files r.offset r.limit).has_more } := by
  unfold regionOf at hallow hdots hdir ⊢
  unfold handleImageAPI
  cases hs : Split (TrimPrefix r.path "/api/images/".toList) with
  | nil => exact absurd hs (Split_ne_nil _)
  | cons p0 rest =>
    simp only [hs, List.headD_cons] at hallow hdots hdir ⊢
    simp only [hm, hallow, hdots, hdir, if_false, Bool.not_true, Bool.or_self,
      Bool.false_eq_true]

theorem forbidden_status_noFileAccess (name msg : Str) :
    (({ calls := [Call.query name], reply := Reply.error msg StatusForbidden } : Result).reply.status
        = some StatusForbidden)
      ∧ ({ calls := [Call.query name], reply := Reply.error msg StatusForbidden } : Result).noFileAccess := by
  constructor
  · rfl
  · intro c hc
    simp only [List.mem_singleton] at hc
    subst hc
    rfl

theorem MethodGet_ne_MethodOptions : MethodGet ≠ MethodOptions := by decide


/-! ## Pagination -/

/-- C4. Page contents: a request that reaches the listing of a region directory with
entries `files`, with a non-negative offset and `offset` plus the effective limit `L`
within the range of `int`, is answered 200 with `images` holding exactly
`take L (drop offset (filter isImage files))`. -/
theorem page_contents (tab : CaseTable) (pgConn : DB) (fs : FS) (r : Request)
    (files : List Str) (offset : Nat)
    (hm : r.method ≠ MethodOptions)
    (hallow : allowedRegion pgConn (regionOf tab "/api/images/".toList r.path) = true)
    (hdots : Contains (regionOf tab "/api/images/".toList r.path) dotdot = false)
    (hdir : fs (Join ["images".toList, regionOf tab "/api/images/".toList r.path])
      = some files)
    (hoff : r.offset = (offset : Int))
    (h : (offset : Int) + (effectiveLimit r.limit : Int) ≤ MaxInt) :
    ∃ images has_more,
      (handleImageAPI tab pgConn fs r).reply = Reply.json images has_more
        ∧ images.items
          = ((files.filter (isImage tab)).drop offset).take (effectiveLimit r.limit) := by
  refine ⟨Marshal (imagePage tab files r.offset r.limit).images,
    (imagePage tab files r.offset r.limit).has_more, ?_, ?_⟩
  · rw [handleImageAPI_listing tab pgConn fs r files hm hallow hdots hdir]
  · rw [items_Marshal, hoff]
    exact (imagePage_inRange tab files offset r.limit h).1

theorem page_contents_witness :
    (handleImageAPI sampleTable parisDB sampleFS (parisListing 0 2)).reply
        = Reply.json (JsonList.array ["a.png".toList, "c.jpg".toList]) true
      ∧ ∃ images has_more,
        (handleImageAPI sampleTable parisDB sampleFS (parisListing 0 2)).reply
            = Reply.json images has_more
          ∧ images.items
            = ((sampleFiles.filter (isImage sampleTable)).drop 0).take (effectiveLimit 2) :=
  ⟨by decide,
    page_contents sampleTable parisDB sampleFS (parisListing 0 2) sampleFiles 0
      (by decide) (by decide) (by decide) (by decide) (by decide) (by decide)⟩

/-- C5. A request that reaches the listing of a region directory with entries `files`,
with a non-negative offset and `offset` plus the effective limit within the range of
`int`, is answered 200 with `has_more` true exactly when `offset` plus the number of
names in `images` is less than the number of entries that satisfy `isImage`. -/
theorem has_more_iff (tab : CaseTable) (pgConn : DB) (fs : FS) (r : Request)
    (files : List Str) (offset : Nat)
    (hm : r.method ≠ MethodOptions)
    (hallow : allowedRegion pgConn (regionOf tab "/api/images/".toList r.path) = true)
    (hdots : Contains (regionOf tab "/api/images/".toList r.path) dotdot = false)
    (hdir : fs (Join ["images".toList, regionOf tab "/api/images/".toList r.path])
      = some files)
    (hoff : r.offset = (offset : Int))
    (h : (offset : Int) + (effectiveLimit r.limit : Int) ≤ MaxInt) :
    ∃ images has_more,
      (handleImageAPI tab pgConn fs r).reply = Reply.json images has_more
        ∧ (has_more = true
            ↔ offset + images.items.length < (files.filter (isImage tab)).length) := by
  refine ⟨Marshal (imagePage tab files r.offset r.limit).images,
    (imagePage tab files r.offset r.limit).has_more, ?_, ?_⟩
  · rw [handleImageAPI_listing tab pgConn fs r files hm hallow hdots hdir]
  · obtain ⟨hi, hmore⟩ := imagePage_inRange tab files offset r.limit h
    rw [items_Marshal, hoff, hmore, hi]
    simp only [List.length_take, List.length_drop]
    have := effectiveLimit_pos r.limit
    omega

theorem has_more_iff_witness :
    (handleImageAPI sampleTable parisDB sampleFS (parisListing 2 2)).reply
        = Reply.json (JsonList.array ["d.webp".toList]) false
      ∧ (handleImageAPI sampleTable parisDB sampleFS (parisListing 0 2)).reply
        = Reply.json (JsonList.array ["a.png".toList, "c.jpg".toList]) true
      ∧ ∃ images has_more,
        (handleImageAPI sampleTable parisDB sampleFS (parisListing 2 2)).reply
            = Reply.json images has_more
          ∧ (has_more = true
              ↔ 2 + images.items.length < (sampleFiles.filter (isImage sampleTable)).length) :=
  ⟨by decide, by decide,
    has_more_iff sampleTable parisDB sampleFS (parisListing 2 2) sampleFiles 2
      (by decide) (by decide) (by decide) (by decide) (by decide) (by decide)⟩

/-- C6. Consecutive pages: for `1 ≤ L ≤ 30` and a request that reaches the listing of a
region directory with entries `files`, the 200 replies for `(offset = 0, limit = L)` and
for `(offset = L, limit = L)` hold, one after the other, the first `2 * L` entries that
satisfy `isImage`, in listing order (all of them when there are at most `2 * L`); and
when the entry names are pairwise distinct no name occurs twice in the two pages. -/
theorem consecutive_pages (tab : CaseTable) (pgConn : DB) (fs : FS) (r : Request)
    (files : List Str) (L : Nat) (h1 : 1 ≤ L) (h30 : L ≤ 30)
    (hm : r.method ≠ MethodOptions)
    (hallow : allowedRegion pgConn (regionOf tab "/api/images/".toList r.path) = true)
    (hdots : Contains (regionOf tab "/api/images/".toList r.path) dotdot = false)
    (hdir : fs (Join ["images".toList, regionOf tab "/api/images/".toList r.path])
      = some files) :
    ∃ first more1 second more2,
      (handleImageAPI tab pgConn fs { r with offset := 0, limit := L }).reply
          = Reply.json first more1
        ∧ (handleImageAPI tab pgConn fs { r with offset := L, limit := L }).reply
          = Reply.json second more2
        ∧ first.items ++ second.items = (files.filter (isImage tab)).take (2 * L)
        ∧ ((files.filter (isImage tab)).length ≤ 2 * L →
            first.items ++ second.items = files.filter (isImage tab))
        ∧ (files.Nodup → (first.items ++ second.items).Nodup) := by
  have hL : effectiveLimit (L : Int) = L := by
    unfold effectiveLimit
    split_ifs <;> omega
  have hr0 : ((0 : Nat) : Int) + (effectiveLimit (L : Int) : Int) ≤ MaxInt := by
    rw [hL]; unfold MaxInt; omega
  have hr1 : ((L : Nat) : Int) + (effectiveLimit (L : Int) : Int) ≤ MaxInt := by
    rw [hL]; unfold MaxInt; omega
  have p0 := (imagePage_inRange tab files 0 L hr0).1
  have p1 := (imagePage_inRange tab files L L hr1).1
  rw [hL] at p0 p1
  simp only [Nat.cast_zero, List.drop_zero] at p0
  have hcat : (Marshal (imagePage tab files 0 L).images).items
        ++ (Marshal (imagePage tab files L L).images).items
      = (files.filter (isImage tab)).take (2 * L) := by
    rw [items_Marshal, items_Marshal, p0, p1, two_mul, List.take_add]
  refine ⟨_, _, _, _,
    by rw [handleImageAPI_listing tab pgConn fs { r with offset := 0, limit := L } files
      hm hallow hdots hdir],
    by rw [handleImageAPI_listing tab pgConn fs { r with offset := L, limit := L } files
      hm hallow hdots hdir],
    hcat, ?_, ?_⟩
  · intro hlen
    rw [hcat, List.take_of_length_le hlen]
  · intro hnd
    rw [hcat]
    exact ((hnd.sublist (List.filter_sublist files)).sublist (List.take_sublist _ _))

theorem consecutive_pages_witness :
    (handleImageAPI sampleTable parisDB sampleFS (parisListing 0 2)).reply
        = Reply.json (JsonList.array ["a.png".toList, "c.jpg".toList]) true
      ∧ (handleImageAPI sampleTable parisDB sampleFS (parisListing 2 2)).reply
        = Reply.json (JsonList.array ["d.webp".toList]) false
      ∧ ∃ first more1 second more2,
        (handleImageAPI sampleTable parisDB sampleFS
            { parisListing 7 9 with offset := 0, limit := (2 : Nat) }).reply
            = Reply.json first more1
          ∧ (handleImageAPI sampleTable parisDB sampleFS
            { parisListing 7 9 with offset := (2 : Nat), limit := (2 : Nat) }).reply
            = Reply.json second more2
          ∧ first.items ++ second.items
            = (sampleFiles.filter (isImage sampleTable)).take (2 * 2)
          ∧ ((sampleFiles.filter (isImage sampleTable)).length ≤ 2 * 2 →
              first.items ++ second.items = sampleFiles.filter (isImage sampleTable))
          ∧ (sampleFiles.Nodup → (first.items ++ second.items).Nodup) :=
  ⟨by decide, by decide,
    consecutive_pages sampleTable parisDB sampleFS (parisListing 7 9) sampleFiles 2
      (by decide) (by decide) (by decide) (by decide) (by decide) (by decide)⟩

/-- C7. Limit clamp: a parsed limit `l` with `l ≤ 0` or `l > 30` gives the same page as
limit 30, for every listing and offset; a limit in `1..30` is used unchanged, the page
being the one the two loops compute with `l` itself. -/
theorem limit_clamp (tab : CaseTable) (files : List Str) (offset l : Int) :
    ((l ≤ 0 ∨ l > 30) → imagePage tab files offset l = imagePage tab files offset 30)
      ∧ ((1 ≤ l ∧ l ≤ 30) →
          clampLimit l = l
            ∧ imagePage tab files offset l
              = { images := (collect tab offset l files { images := none, count := 0 }).images,
                  has_more := decide
                    ((collect tab offset l files { images := none, count := 0 }).count
                      < countImages tab files) }) := by
  constructor
  · intro h
    have hc : clampLimit l = clampLimit 30 := by
      unfold clampLimit
      split_ifs <;> omega
    simp only [imagePage, hc]
  · intro h
    have hc : clampLimit l = l := by
      unfold clampLimit
      split_ifs <;> omega
    exact ⟨hc, by simp only [imagePage, hc]⟩

theorem limit_clamp_witness :
    imagePage sampleTable sampleFiles 0 0 = imagePage sampleTable sampleFiles 0 30
      ∧ imagePage sampleTable sampleFiles 0 31 = imagePage sampleTable sampleFiles 0 30
      ∧ clampLimit 2 = 2 :=
  ⟨(limit_clamp sampleTable sampleFiles 0 0).1 (Or.inl (by decide)),
    (limit_clamp sampleTable sampleFiles 0 31).1 (Or.inr (by decide)),
    ((limit_clamp sampleTable sampleFiles 0 2).2 ⟨by decide, by decide⟩).1⟩


/-! ## Validation -/

/-- C1. Traversal guard: on a serve route with at least two segments, and on the listing
route for a GET request, a lower-cased region segment that contains `..`, or on a serve
route a filename segment that contains `..`, is answered with 403 Forbidden and neither
`os.ReadDir` nor `http.ServeFile` is called, whatever the store and the filesystem. -/
theorem traversal_guard (tab : CaseTable) (pgConn : DB) (fs : FS) (r : Request) :
    (∀ f, filenameOf "/images/".toList r.path = some f →
        (Contains (regionOf tab "/images/".toList r.path) dotdot = true
          ∨ Contains f dotdot = true) →
        (handleImageServe tab pgConn r).reply.status = some StatusForbidden
          ∧ (handleImageServe tab pgConn r).noFileAccess)
      ∧ (∀ f, filenameOf "/thumbs/".toList r.path = some f →
        (Contains (regionOf tab "/thumbs/".toList r.path) dotdot = true
          ∨ Contains f dotdot = true) →
        (handleThumbServe tab pgConn r).reply.status = some StatusForbidden
          ∧ (handleThumbServe tab pgConn r).noFileAccess)
      ∧ (r.method = MethodGet →
        Contains (regionOf tab "/api/images/".toList r.path) dotdot = true →
        (handleImageAPI tab pgConn fs r).reply.status = some StatusForbidden
          ∧ (handleImageAPI tab pgConn fs r).noFileAccess) := by
  refine ⟨?_, ?_, ?_⟩
  · intro f hf h
    unfold handleImageServe
    rw [serveUnder_forbidden tab _ _ pgConn r f hf (Or.inr h)]
    exact forbidden_status_noFileAccess _ _
  · intro f hf h
    unfold handleThumbServe
    rw [serveUnder_forbidden tab _ _ pgConn r f hf (Or.inr h)]
    exact forbidden_status_noFileAccess _ _
  · intro hm h
    rw [handleImageAPI_forbidden tab pgConn fs r
      (by rw [hm]; exact MethodGet_ne_MethodOptions) (Or.inr h)]
    exact forbidden_status_noFileAccess _ _

theorem traversal_guard_witness :
    allowedRegion parisDB (regionOf sampleTable "/images/".toList passwdRequest.path) = true
      ∧ (handleImageServe sampleTable parisDB passwdRequest).reply.status
        = some StatusForbidden
      ∧ (handleImageServe sampleTable parisDB passwdRequest).noFileAccess :=
  ⟨by decide,
    (traversal_guard sampleTable parisDB sampleFS passwdRequest).1 dotdot (by decide)
      (Or.inr (by decide))⟩

/-- C2. Allow-list gate: on a serve route with at least two segments, and on the listing
route for a GET request, when the store has no row whose name is the lower-cased region
segment the answer is 403 Forbidden and neither `os.ReadDir` nor `http.ServeFile` is
called, for every filesystem. -/
theorem allow_list_gate (tab : CaseTable) (pgConn : DB) (fs : FS) (r : Request) :
    (∀ f, filenameOf "/images/".toList r.path = some f →
        (∀ row ∈ pgConn.region, row.name ≠ regionOf tab "/images/".toList r.path) →
        (handleImageServe tab pgConn r).reply.status = some StatusForbidden
          ∧ (handleImageServe tab pgConn r).noFileAccess)
      ∧ (∀ f, filenameOf "/thumbs/".toList r.path = some f →
        (∀ row ∈ pgConn.region, row.name ≠ regionOf tab "/thumbs/".toList r.path) →
        (handleThumbServe tab pgConn r).reply.status = some StatusForbidden
          ∧ (handleThumbServe tab pgConn r).noFileAccess)
      ∧ (r.method = MethodGet →
        (∀ row ∈ pgConn.region, row.name ≠ regionOf tab "/api/images/".toList r.path) →
        (handleImageAPI tab pgConn fs r).reply.status = some StatusForbidden
          ∧ (handleImageAPI tab pgConn fs r).noFileAccess) := by
  refine ⟨?_, ?_, ?_⟩
  · intro f hf h
    unfold handleImageServe
    rw [serveUnder_forbidden tab _ _ pgConn r f hf
      (Or.inl (allowedRegion_of_no_row _ _ h))]
    exact forbidden_status_noFileAccess _ _
  · intro f hf h
    unfold handleThumbServe
    rw [serveUnder_forbidden tab _ _ pgConn r f hf
      (Or.inl (allowedRegion_of_no_row _ _ h))]
    exact forbidden_status_noFileAccess _ _
  · intro hm h
    rw [handleImageAPI_forbidden tab pgConn fs r
      (by rw [hm]; exact MethodGet_ne_MethodOptions)
      (Or.inl (allowedRegion_of_no_row _ _ h))]
    exact forbidden_status_noFileAccess _ _

theorem allow_list_gate_witness :
    regionOf sampleTable "/api/images/".toList ecoleRequest.path
        = Char.ofNat 0xE9 :: "cole".toList
      ∧ sampleFS (Join ["images".toList,
          regionOf sampleTable "/api/images/".toList ecoleRequest.path]) = some sampleFiles
      ∧ (handleImageAPI sampleTable ecoleDB sampleFS ecoleRequest).reply.status
        = some StatusForbidden
      ∧ (handleImageAPI sampleTable ecoleDB sampleFS ecoleRequest).noFileAccess :=
  ⟨by decide, rfl,
    (allow_list_gate sampleTable ecoleDB sampleFS ecoleRequest).2.2 rfl (by decide)⟩

/-- C3. Fail-closed region validation: `allowedRegion s` is true exactly when the query
for `s` succeeds with at least one row; on a store error it is false, and each of the
three handlers answers 403 Forbidden for a request whose region is `s` (any method but
OPTIONS on the listing route, a path of at least two segments on the serve routes). -/
theorem fail_closed (tab : CaseTable) (pgConn : DB) (s : Str) :
    (allowedRegion pgConn s = true
        ↔ ∃ rows, pgConn.Query s = Except.ok rows ∧ rows ≠ [])
      ∧ (∀ e, pgConn.Query s = Except.error e →
          allowedRegion pgConn s = false
            ∧ (∀ (fs : FS) (r : Request), r.method ≠ MethodOptions →
                regionOf tab "/api/images/".toList r.path = s →
                (handleImageAPI tab pgConn fs r).reply.status = some StatusForbidden)
            ∧ (∀ (r : Request) (f : Str), filenameOf "/images/".toList r.path = some f →
                regionOf tab "/images/".toList r.path = s →
                (handleImageServe tab pgConn r).reply.status = some StatusForbidden)
            ∧ (∀ (r : Request) (f : Str), filenameOf "/thumbs/".toList r.path = some f →
                regionOf tab "/thumbs/".toList r.path = s →
                (handleThumbServe tab pgConn r).reply.status = some StatusForbidden)) := by
  refine ⟨allowedRegion_iff pgConn s, ?_⟩
  intro e he
  have hfalse := allowedRegion_of_error pgConn s e he
  refine ⟨hfalse, ?_, ?_, ?_⟩
  · intro fs r hm hr
    rw [handleImageAPI_forbidden tab pgConn fs r hm (Or.inl (by rw [hr]; exact hfalse))]
    rfl
  · intro r f hf hr
    unfold handleImageServe
    rw [serveUnder_forbidden tab _ _ pgConn r f hf (Or.inl (by rw [hr]; exact hfalse))]
    rfl
  · intro r f hf hr
    unfold handleThumbServe
    rw [serveUnder_forbidden tab _ _ pgConn r f hf (Or.inl (by rw [hr]; exact hfalse))]
    rfl

theorem fail_closed_witness :
    downDB.Query "paris".toList = Except.error "connection refused".toList
      ∧ allowedRegion downDB "paris".toList = false
      ∧ (handleImageServe sampleTable downDB parisImageRequest).reply.status
        = some StatusForbidden
      ∧ (handleImageAPI sampleTable downDB sampleFS (parisListing 0 2)).reply.status
        = some StatusForbidden
      ∧ allowedRegion parisDB "paris".toList = true :=
  ⟨rfl,
    ((fail_closed sampleTable downDB "paris".toList).2 "connection refused".toList rfl).1,
    ((fail_closed sampleTable downDB "paris".toList).2 "connection refused".toList rfl).2.2.1
      parisImageRequest "a.png".toList (by decide) (by decide),
    ((fail_closed sampleTable downDB "paris".toList).2 "connection refused".toList rfl).2.1
      sampleFS (parisListing 0 2) (by decide) (by decide),
    ((fail_closed sampleTable parisDB "paris".toList).1).2
      ⟨[{ name := "paris".toList }], rfl, by decide⟩⟩

/-! ## Defects -/

/-- C8. For every case table, the serve handlers accept an empty filename segment and
the segment `.`, and hand `http.ServeFile` the region directory itself, not an entry
inside it. -/
theorem serve_region_directory (tab : CaseTable) :
    filenameOf "/images/".toList slashRequest.path = some []
      ∧ handleImageServe tab parisDB slashRequest
        = { calls := [Call.query "paris".toList, Call.serveFile "images/paris".toList],
            reply := Reply.served "images/paris".toList }
      ∧ Join ["images".toList, "paris".toList] = "images/paris".toList
      ∧ filenameOf "/thumbs/".toList dotRequest.path = some ['.']
      ∧ handleThumbServe tab parisDB dotRequest
        = { calls := [Call.query "paris".toList, Call.serveFile "thumbs/paris".toList],
            reply := Reply.served "thumbs/paris".toList }
      ∧ Join ["thumbs".toList, "paris".toList] = "thumbs/paris".toList :=
  ⟨rfl, rfl, rfl, rfl, rfl, rfl⟩

/-- C9. For every case table: for an empty region directory, and for an offset at the
total, the 200 response of the listing handler encodes `images` as JSON `null`, not as
the empty array. -/
theorem images_null_when_empty (tab : CaseTable) :
    (handleImageAPI tab parisDB emptyFS parisListRequest).reply
        = Reply.json JsonList.null false
      ∧ (handleImageAPI tab parisDB sampleFS parisPastEndRequest).reply
        = Reply.json JsonList.null false
      ∧ JsonList.null ≠ JsonList.array [] :=
  ⟨rfl, rfl, by decide⟩

/-- C10. With one image in the listing and `offset` the largest `int`, `offset + limit`
wraps to a negative number for every limit, the loop stops at the first image with
`count = 0`, and `has_more` is true although `offset` is past the end. -/
theorem offset_past_end_wraps (tab : CaseTable) (limit : Int) :
    (((["a.png".toList].filter (isImage tab)).length : Int) ≤ MaxInt)
      ∧ wrapInt (MaxInt + clampLimit limit) < 0
      ∧ elems (imagePage tab ["a.png".toList] MaxInt limit).images = []
      ∧ (imagePage tab ["a.png".toList] MaxInt limit).has_more = true := by
  have hw : wrapInt (MaxInt + clampLimit limit) < 0 := by
    unfold wrapInt MaxInt clampLimit
    split_ifs <;> omega
  have himg : isImage tab ['a', '.', 'p', 'n', 'g'] = true := rfl
  have hbreak : (0 : Int) ≥ wrapInt (MaxInt + clampLimit limit) := le_of_lt hw
  refine ⟨?_, hw, ?_, ?_⟩
  · have hlen : (["a.png".toList].filter (isImage tab)).length = 1 := by
      simp [himg]
    rw [hlen]
    decide
  · simp [imagePage, collect, himg, hbreak, elems]
  · simp [imagePage, collect, countImages, himg, hbreak]

/-- The table matters outside ASCII only: with a table that lower-cases U+00C9, the
region of `ecoleRequest` is queried in lower case and a row with the capital kept does
not allow it, while the row in lower case does. -/
theorem lowercase_region_outside_ascii :
    (handleImageAPI sampleTable ecoleDB sampleFS ecoleRequest).calls
        = [Call.query (Char.ofNat 0xE9 :: "cole".toList)]
      ∧ (handleImageAPI sampleTable
          { region := [{ name := Char.ofNat 0xE9 :: "cole".toList }],
            queryErr := fun _ => none } sampleFS ecoleRequest).reply.status = some 200 := by
  decide

end PhotoMap
